import Mathlib

/-!
Verification development for the reverse-mode automatic-differentiation pass
of gradient-halide (`src/Derivative.cpp`).

The C++ code manipulates Halide IR expressions (`Expr`), which are
reference-counted pointers into a DAG of immutable nodes.  We embed them in
two complementary ways, each used where it is the faithful one:

* `Expr` below is the *tree unfolding* of an IR expression: it is the right
  model for the passes that only inspect or build expression **values**
  (`get_min_max_bounds`, `merge_bounds`, `substitute`, the local derivative
  rules, the index canonicalization of `ReverseAccumulationVisitor::visit(Call)`).

* `GNode`/graphs of node indices (further below) model the pointer DAG with
  explicit node identities (a node's identity is its index, children are
  smaller indices).  This is the right model for the passes whose bookkeeping
  is keyed by node address (`ExpressionSorter`, the `accumulated_adjoints`
  map of the reverse accumulator).

External collaborators that live outside `src/` (the simplifier, the solver,
the substitution engine) are modelled from the spec's §6 descriptions: the
simplifier and the solver are taken as parameters constrained only by the
properties the spec gives them, and `substitute` is implemented directly from
"replaces every free occurrence of a named variable inside an expression with
another expression".
-/

namespace GradientHalide

/-- Call types of a Halide `Call` node that matter to `Derivative.cpp`:
calls to Halide functions (`Call::Halide`), to images (`Call::Image`),
and everything else (intrinsics / extern calls). -/
inductive CallType where
  | Halide
  | Image
  | Extern
deriving DecidableEq, Repr

/-- Tree unfolding of a Halide IR expression, restricted to the node shapes
`Derivative.cpp` manipulates: integer and float immediates, variables
(carrying an optional reduction domain, itself a list of
`(min, extent)` expression pairs exactly like `ReductionDomain::domain()`),
the binary arithmetic nodes, `Cast`, comparisons (`LE`, `GE`, `EQ`),
`Select`, `Call` (with its call type, name and argument list) and `Let`. -/
inductive Expr where
  | intImm (v : Int)
  | floatImm (v : ℚ)
  | var (name : String) (rdom : Option (List (Expr × Expr)))
  | add (a b : Expr)
  | sub (a b : Expr)
  | mul (a b : Expr)
  | div (a b : Expr)
  | emin (a b : Expr)
  | emax (a b : Expr)
  | cast (a : Expr)
  | le (a b : Expr)
  | ge (a b : Expr)
  | eqE (a b : Expr)
  | select (c t f : Expr)
  | call (ct : CallType) (name : String) (args : List Expr)
  | letE (name : String) (value body : Expr)

instance : Inhabited Expr := ⟨Expr.intImm 0⟩

mutual

/-- `VariableFinder::find` (Derivative.cpp:19-38): true iff a `Variable`
node with the given name occurs anywhere in the expression.  The visitor
matches on the node's name only (it does not look at the reduction domain,
and does not descend into a variable's reduction-domain bounds), and its
default traversal descends into every child of every other node, including
the arguments of all calls. -/
def contains : Expr → String → Bool
  | .intImm _, _ => false
  | .floatImm _, _ => false
  | .var n _, v => n = v
  | .add a b, v => contains a v || contains b v
  | .sub a b, v => contains a v || contains b v
  | .mul a b, v => contains a v || contains b v
  | .div a b, v => contains a v || contains b v
  | .emin a b, v => contains a v || contains b v
  | .emax a b, v => contains a v || contains b v
  | .cast a, v => contains a v
  | .le a b, v => contains a v || contains b v
  | .ge a b, v => contains a v || contains b v
  | .eqE a b, v => contains a v || contains b v
  | .select c t f, v => contains c v || contains t v || contains f v
  | .call _ _ args, v => containsList args v
  | .letE _ value body, v => contains value v || contains body v

def containsList : List Expr → String → Bool
  | [], _ => false
  | e :: rest, v => contains e v || containsList rest v

end

mutual

/-- Modelled from the spec (§6): the substitution engine of `Substitute.h`,
"replaces every free occurrence of a named variable inside an expression
with another expression".  A `Let` binding of the same name hides the
occurrences in its body (they are not free). -/
def substitute (name : String) (repl : Expr) : Expr → Expr
  | .intImm v => .intImm v
  | .floatImm v => .floatImm v
  | .var n d => if n = name then repl else .var n d
  | .add a b => .add (substitute name repl a) (substitute name repl b)
  | .sub a b => .sub (substitute name repl a) (substitute name repl b)
  | .mul a b => .mul (substitute name repl a) (substitute name repl b)
  | .div a b => .div (substitute name repl a) (substitute name repl b)
  | .emin a b => .emin (substitute name repl a) (substitute name repl b)
  | .emax a b => .emax (substitute name repl a) (substitute name repl b)
  | .cast a => .cast (substitute name repl a)
  | .le a b => .le (substitute name repl a) (substitute name repl b)
  | .ge a b => .ge (substitute name repl a) (substitute name repl b)
  | .eqE a b => .eqE (substitute name repl a) (substitute name repl b)
  | .select c t f =>
      .select (substitute name repl c) (substitute name repl t) (substitute name repl f)
  | .call ct n args => .call ct n (substituteList name repl args)
  | .letE n value body =>
      .letE n (substitute name repl value)
        (if n = name then body else substitute name repl body)

def substituteList (name : String) (repl : Expr) : List Expr → List Expr
  | [] => []
  | e :: rest => substitute name repl e :: substituteList name repl rest

end

mutual

/-- True iff the named variable occurs *free* in the expression
(a `Let` of the same name hides its body's occurrences).  This is the
notion of occurrence that `substitute` eliminates. -/
def freeContains : Expr → String → Bool
  | .intImm _, _ => false
  | .floatImm _, _ => false
  | .var n _, v => n = v
  | .add a b, v => freeContains a v || freeContains b v
  | .sub a b, v => freeContains a v || freeContains b v
  | .mul a b, v => freeContains a v || freeContains b v
  | .div a b, v => freeContains a v || freeContains b v
  | .emin a b, v => freeContains a v || freeContains b v
  | .emax a b, v => freeContains a v || freeContains b v
  | .cast a, v => freeContains a v
  | .le a b, v => freeContains a v || freeContains b v
  | .ge a b, v => freeContains a v || freeContains b v
  | .eqE a b, v => freeContains a v || freeContains b v
  | .select c t f, v => freeContains c v || freeContains t v || freeContains f v
  | .call _ _ args, v => freeContainsList args v
  | .letE n value body, v =>
      freeContains value v || (decide (n ≠ v) && freeContains body v)

def freeContainsList : List Expr → String → Bool
  | [], _ => false
  | e :: rest, v => freeContains e v || freeContainsList rest v

end

/-- One dimension of an `RDom`: a reduction variable with its `min()` and
`extent()` accessor values (both symbolic expressions), mirroring Halide's
`ReductionVariable`. -/
structure RVarDim where
  rmin : Expr
  rextent : Expr

/-- An `RDom` as `Derivative.cpp` uses it: an ordered list of dimensions. -/
abbrev RDom := List RVarDim

/-- The `RDom(FuncBounds)` constructor used at Derivative.cpp:220 and
Derivative.cpp:252: each `(first, second)` pair of the vector becomes one
dimension with `min = first` and `extent = second`, verbatim.  Note that
`BoundsInferencer::inference` (line 252) feeds it `func_bounds[key]`, whose
pairs are `(minimum, maximum)` bounds — so inside the inferencer, dimension
`i`'s `extent()` slot holds the recorded *maximum*. -/
def rdom_of_bounds (bounds : List (Expr × Expr)) : RDom :=
  bounds.map (fun p => ⟨p.1, p.2⟩)

/-- The name-lookup loop of Derivative.cpp:62-66: index of the first
`current_args` entry whose name equals `v`. -/
def find_arg_index : List String → String → Option Nat
  | [], _ => none
  | a :: rest, v =>
      if a = v then some 0
      else (find_arg_index rest v).map (· + 1)

/-- `get_min_max_bounds` (Derivative.cpp:40-87).  Returns the symbolic
`(min, max)` bounds pair for a call-argument expression, by structural
recursion over the supported node shapes; any unsupported shape reaches
the `internal_error` at line 85, which we model as `none`.  The two
out-of-range indexings (`reduction_domain.domain()[index]` at line 57 and
`current_bounds[i]` at line 64) are likewise modelled as fatal. -/
def get_min_max_bounds (e : Expr) (current_args : List String)
    (current_bounds : RDom) (index : Nat) : Option (Expr × Expr) :=
  match e with
  | .add a b =>
      match get_min_max_bounds a current_args current_bounds index,
            get_min_max_bounds b current_args current_bounds index with
      | some ab, some bb => some (.add ab.1 bb.1, .add ab.2 bb.2)
      | _, _ => none
  | .sub a b =>
      match get_min_max_bounds a current_args current_bounds index,
            get_min_max_bounds b current_args current_bounds index with
      | some ab, some bb => some (.sub ab.1 bb.2, .sub ab.2 bb.1)
      | _, _ => none
  | .var v rdom =>
      match rdom with
      | some dom =>
          -- ReductionVariable rvar = var->reduction_domain.domain()[index];
          -- return {rvar.min, rvar.min + rvar.extent - 1};
          match dom[index]? with
          | some rv => some (rv.1, .sub (.add rv.1 rv.2) (.intImm 1))
          | none => none
      | none =>
          -- loop over current_args; on a name match return
          -- {current_bounds[i].min(), current_bounds[i].extent()};
          -- falling out of the loop reaches the internal_error at line 85.
          match find_arg_index current_args v with
          | some i =>
              match current_bounds[i]? with
              | some rv => some (rv.rmin, rv.rextent)
              | none => none
          | none => none
  | .emax a b =>
      match get_min_max_bounds a current_args current_bounds index,
            get_min_max_bounds b current_args current_bounds index with
      | some ab, some bb => some (.emax ab.1 bb.1, .emax ab.2 bb.2)
      | _, _ => none
  | .emin a b =>
      match get_min_max_bounds a current_args current_bounds index,
            get_min_max_bounds b current_args current_bounds index with
      | some ab, some bb => some (.emin ab.1 bb.1, .emin ab.2 bb.2)
      | _, _ => none
  | .intImm v => some (.intImm v, .intImm v)
  | _ => none

/-- `merge_bounds` (Derivative.cpp:89-91), parametric in the external
simplifier (spec §6: a pure normalizing function). -/
def merge_bounds (simplify : Expr → Expr) (bounds0 bounds1 : Expr × Expr) :
    Expr × Expr :=
  (simplify (.emin bounds0.1 bounds1.1), simplify (.emax bounds0.2 bounds1.2))

/-- Key of the per-(function, stage) maps: function name and update id,
with `-1` the pure definition (Derivative.cpp:193). -/
abbrev FuncKey := String × Int

/-- A `FuncBounds` value (Derivative.cpp:192): one `(min, max)` symbolic
bounds pair per call-argument position. -/
abbrev FuncBoundsL := List (Expr × Expr)

/-- The bounds-recording step of `BoundsInferencer::visit(Call)`
(Derivative.cpp:283-298): if the key was already recorded, merge the new
argument bounds into the stored ones elementwise with `merge_bounds`,
then store the result. -/
def update_func_bounds (simplify : Expr → Expr)
    (func_bounds : FuncKey → Option FuncBoundsL)
    (key : FuncKey) (arg_bounds : FuncBoundsL) :
    FuncKey → Option FuncBoundsL :=
  let merged : FuncBoundsL :=
    match func_bounds key with
    | some prev_bounds => List.zipWith (merge_bounds simplify) prev_bounds arg_bounds
    | none => arg_bounds
  fun k => if k = key then some merged else func_bounds k

/-- Reference evaluation semantics for the expression shapes that the
claims reason about numerically (interval bounds and the gated `Select`
expressions produced by the min/max derivative rules).  Variables are
read from the environment by name; `Select` evaluates its comparison
condition; shapes with no numeric reading here evaluate to `none`. -/
def ev (ρ : String → ℚ) : Expr → Option ℚ
  | .intImm v => some (v : ℚ)
  | .floatImm v => some v
  | .var n _ => some (ρ n)
  | .add a b => do pure ((← ev ρ a) + (← ev ρ b))
  | .sub a b => do pure ((← ev ρ a) - (← ev ρ b))
  | .mul a b => do pure ((← ev ρ a) * (← ev ρ b))
  | .div a b => do pure ((← ev ρ a) / (← ev ρ b))
  | .emin a b => do pure (min (← ev ρ a) (← ev ρ b))
  | .emax a b => do pure (max (← ev ρ a) (← ev ρ b))
  | .cast a => ev ρ a
  | .select c t f =>
      match c with
      | .le x y => do
          let xv ← ev ρ x
          let yv ← ev ρ y
          if xv ≤ yv then ev ρ t else ev ρ f
      | .ge x y => do
          let xv ← ev ρ x
          let yv ← ev ρ y
          if yv ≤ xv then ev ρ t else ev ρ f
      | _ => none
  | _ => none

/-- A Halide `Function` as `Derivative.cpp` consumes it: its name, its
domain-variable names (`func.args()`), its pure value (`func.value()`,
stage `-1`) and its update values (`func.update_value(k)` for
`0 ≤ k < num_update_definitions()`). -/
structure FunctionSig where
  name : String
  args : List String
  value : Expr
  updates : List Expr

/-- The `accumulated_adjoints` map of `ReverseAccumulationVisitor`
(Derivative.cpp:347): keyed by the *address* of the expression node
(`const BaseExprNode *`), which we model as a natural-number node
identity; values are adjoint expressions. -/
abbrev AccMap := Nat → Option Expr

/-- `ReverseAccumulationVisitor::accumulate` (Derivative.cpp:439-446):
if the node identity has no entry, set it to the adjoint; otherwise the
entry becomes its previous value plus the adjoint (`operator+=` on `Expr`
builds an `Add` node). -/
def accumulate (m : AccMap) (stub : Nat) (adjoint : Expr) : AccMap :=
  fun k =>
    if k = stub then
      some (match m stub with
            | none => adjoint
            | some prev => .add prev adjoint)
    else m k

/-- Halide unary negation on `Expr`: `-a` is `Sub::make(make_zero(t), a)`. -/
def neg (a : Expr) : Expr := .sub (.floatImm 0) a

/-- The `0.f` literal used by the min/max derivative rules. -/
def fzero : Expr := .floatImm 0

/-- `exp(e)`: a call to the `exp_f32` intrinsic. -/
def exp_call (a : Expr) : Expr := .call .Extern "exp_f32" [a]

/-- `ReverseAccumulationVisitor::visit(Mul)` (Derivative.cpp:486-494):
the ordered list of `accumulate(operand, contribution)` calls it makes
given the node's operands and its accumulated adjoint. -/
def visit_mul (a b adjoint : Expr) : List (Expr × Expr) :=
  [(a, .mul adjoint b), (b, .mul adjoint a)]

/-- `ReverseAccumulationVisitor::visit(Div)` (Derivative.cpp:496-504):
`a` receives `adjoint / b` and `b` receives `-adjoint * a / (b * b)`. -/
def visit_div (a b adjoint : Expr) : List (Expr × Expr) :=
  [(a, .div adjoint b), (b, .div (.mul (neg adjoint) a) (.mul b b))]

/-- `ReverseAccumulationVisitor::visit(Min)` (Derivative.cpp:506-514):
each operand receives the adjoint gated by the corresponding `<=`
comparison (`select(a <= b, adjoint, 0.f)` and symmetrically). -/
def visit_min (a b adjoint : Expr) : List (Expr × Expr) :=
  [(a, .select (.le a b) adjoint fzero), (b, .select (.le b a) adjoint fzero)]

/-- `ReverseAccumulationVisitor::visit(Max)` (Derivative.cpp:516-524):
gating by `>=` instead of `<=`. -/
def visit_max (a b adjoint : Expr) : List (Expr × Expr) :=
  [(a, .select (.ge a b) adjoint fzero), (b, .select (.ge b a) adjoint fzero)]

/-- Modelled from the spec (§4.4): the expression that
`substitute(args[i].name(), current_bounds, adjoint)` at Derivative.cpp:567
substitutes for the domain variable — the enclosing `RDom` converted to an
`Expr`, i.e. "a fresh reduction over the current enclosing bound range"
(the conversion operator itself lives in Halide's `RDom.h`, outside
`src/`).  The resulting node is a reduction-variable reference carrying
the enclosing bounds as its reduction domain; freshness is realized by a
name distinct from the variable being replaced. -/
def rdom_to_expr (vi : String) (bounds : RDom) : Expr :=
  .var (vi ++ "_r") (some (bounds.map (fun rv => (rv.rmin, rv.rextent))))

/-- The second rewrite of the not-found branch (Derivative.cpp:570-575):
if the call argument is itself a reduction-variable reference, substitute
that reduction variable with the canonical domain variable. -/
def rvar_arg_fix (ei : Expr) (vi : String) (adjoint : Expr) : Expr :=
  match ei with
  | .var n (some _) => substitute n (.var vi none) adjoint
  | _ => adjoint

/-- One iteration of the canonicalization loop of
`ReverseAccumulationVisitor::visit(Call)` (Derivative.cpp:561-591) for
argument expression `ei` at the coordinate whose domain variable is `vi`.
`solve` is the external equation solver (spec §6: "given an equation and a
variable name, returns either a fully-solved inverse expression or a
failure indicator"); `solve ei vi = some rhs` stands for
`solve_expression(tmp == ei, vi)` succeeding with solved right-hand side
`rhs` (an expression in `tmp`). -/
def canon_step (solve : Expr → String → Option Expr) (current_bounds : RDom)
    (ei : Expr) (vi : String) (adjoint : Expr) : Except String Expr :=
  if contains ei vi then
    -- Apply the inverse to rhs.
    match solve ei vi with
    | none => .error "Cant solve the inverse"
    | some result_rhs =>
        let inv := substitute "tmp" (.var vi none) result_rhs
        .ok (substitute vi inv adjoint)
  else
    -- When argument vi does not appear in op->args[i], all vi in adjoint
    -- are replaced by an RDom looping through the bounds of the current
    -- function; then, if the argument is an RVar, it is replaced by the
    -- non-reduction argument.
    let adjoint1 :=
      if contains adjoint vi then substitute vi (rdom_to_expr vi current_bounds) adjoint
      else adjoint
    .ok (rvar_arg_fix ei vi adjoint1)

/-- The whole canonicalization loop: fold `canon_step` over the call's
argument expressions paired with the called function's domain-variable
names (`for (int i = 0; i < op->args.size(); i++)`). -/
def canonicalize (solve : Expr → String → Option Expr) (current_bounds : RDom) :
    List (Expr × String) → Expr → Except String Expr
  | [], adjoint => .ok adjoint
  | (ei, vi) :: rest, adjoint =>
      match canon_step solve current_bounds ei vi adjoint with
      | .error msg => .error msg
      | .ok adj => canonicalize solve current_bounds rest adj

/-- What `ReverseAccumulationVisitor::visit(Call)` does, observably:
the ordered `accumulate` calls it makes into `accumulated_adjoints`, and
the scatter `func_to_update(args) += adjoint` (target key, canonical
left-hand side variables, scattered adjoint), if any. -/
structure CallVisitResult where
  contribs : List (Expr × Expr)
  scatter : Option (FuncKey × List String × Expr)

/-- `ReverseAccumulationVisitor::visit(Call)` (Derivative.cpp:526-597).
Parameters mirror the visitor state and the call node's fields:
`current_func_key`/`current_bounds` are the visitor's context
(Derivative.cpp:414-415), `cname` is `op->name`, `func` is
`op->func` (`none` when `!op->func.defined()`), `cargs` is `op->args`
and `adjoint` the node's accumulated adjoint.  The `exp_f32` branch
accumulates `adjoint * exp(arg)` into every argument; the
Halide-function branch picks the target stage, canonicalizes the
adjoint, and scatters it. -/
def visit_call (solve : Expr → String → Option Expr)
    (current_func_key : FuncKey) (current_bounds : RDom)
    (cname : String) (func : Option FunctionSig) (cargs : List Expr)
    (adjoint : Expr) : Except String CallVisitResult :=
  let contribs : List (Expr × Expr) :=
    if cname = "exp_f32" then
      cargs.map (fun a => (a, Expr.mul adjoint (exp_call a)))
    else []
  match func with
  | none => .ok ⟨contribs, none⟩
  | some g =>
      -- If referring to the current function itself, send to previous
      -- update; otherwise to the last update of the called function.
      let key : FuncKey :=
        if g.name ≠ current_func_key.1 then
          (g.name, (g.updates.length : Int) - 1)
        else
          (g.name, current_func_key.2 - 1)
      match canonicalize solve current_bounds (cargs.zip g.args) adjoint with
      | .error msg => .error msg
      | .ok adj => .ok ⟨contribs, some (key, g.args, adj)⟩

/-! ### FunctionSorter (Derivative.cpp:93-142)

`FunctionSorter` walks the function-call graph from a root expression and
emits every reachable function, guarding against re-expansion with the
`traversed_functions` name set.  Its `visited` pointer set only prunes
repeat traversals of shared sub-DAGs; since `traversed_functions` already
makes a second traversal of the same subtree contribute nothing to the
output list, we model the traversal over expression trees without the
pointer set.  `Function(op->func)` — dereferencing the call's function
pointer — is modelled as a lookup of the call's name in the program
environment; an undefined function is the spec's fatal `malformed-graph`
condition.  Recursion through functions is fuel-bounded; running out of
fuel is distinguished from normal completion by `none`. -/

/-- Program environment: dereferencing a call's function pointer by name. -/
def lookupFunc : List FunctionSig → String → Option FunctionSig
  | [], _ => none
  | f :: rest, n => if f.name = n then some f else lookupFunc rest n

/-- The stage countdown loop (Derivative.cpp:120-126 and 250-259):
`for (update_id = n - 1; update_id >= -1; update_id--)` visiting
`update_value(update_id)` for `update_id >= 0` and `value()` for `-1`.
`stages_from f n` is the list of stage values the loop visits when the
counter starts at `n - 1` (so `stages_from f f.updates.length` is the full
last-update-to-initialization order). -/
def stages_from (f : FunctionSig) : Nat → List Expr
  | 0 => [f.value]
  | n + 1 => f.updates.getD n default :: stages_from f n

/-- The worklist of the sorter: an expression to visit (`accept`), a
function to expand (`FunctionSorter::sort(Func)`), or a list of
expressions to visit in order. -/
inductive STask where
  | exprT (e : Expr)
  | funcT (f : FunctionSig)
  | listT (es : List Expr)

/-- `FunctionSorter` state: `traversed_functions` and the output list
(function names, in emission order). -/
structure SortState where
  traversed : List String
  functions : List String

/-- One fuel-bounded interpreter for the mutually recursive
`FunctionSorter::sort` / `visit(Call)` / `IRGraphVisitor` traversal:
a Halide call looks its function up and, unless the name was already
traversed, expands it (`sort(Func)` first records the name and emits the
function, then visits its stages from last update down to the pure
definition); every other node visits its children in order
(non-Halide calls visit their argument list — Derivative.cpp:139-141). -/
def sortStep (prog : List FunctionSig) :
    Nat → SortState → STask → Option SortState
  | 0, _, _ => none
  | fuel + 1, st, .exprT e =>
      match e with
      | .intImm _ => some st
      | .floatImm _ => some st
      | .var _ _ => some st
      | .add a b => sortStep prog fuel st (.listT [a, b])
      | .sub a b => sortStep prog fuel st (.listT [a, b])
      | .mul a b => sortStep prog fuel st (.listT [a, b])
      | .div a b => sortStep prog fuel st (.listT [a, b])
      | .emin a b => sortStep prog fuel st (.listT [a, b])
      | .emax a b => sortStep prog fuel st (.listT [a, b])
      | .cast a => sortStep prog fuel st (.listT [a])
      | .le a b => sortStep prog fuel st (.listT [a, b])
      | .ge a b => sortStep prog fuel st (.listT [a, b])
      | .eqE a b => sortStep prog fuel st (.listT [a, b])
      | .select c t f => sortStep prog fuel st (.listT [c, t, f])
      | .letE _ value body => sortStep prog fuel st (.listT [value, body])
      | .call .Halide name _ =>
          match lookupFunc prog name with
          | none => none
          | some f =>
              if name ∈ st.traversed then some st
              else sortStep prog fuel st (.funcT f)
      | .call .Image _ args => sortStep prog fuel st (.listT args)
      | .call .Extern _ args => sortStep prog fuel st (.listT args)
  | fuel + 1, st, .funcT f =>
      sortStep prog fuel
        ⟨f.name :: st.traversed, st.functions ++ [f.name]⟩
        (.listT (stages_from f f.updates.length))
  | _ + 1, st, .listT [] => some st
  | fuel + 1, st, .listT (e :: rest) =>
      match sortStep prog fuel st (.exprT e) with
      | none => none
      | some st1 => sortStep prog fuel st1 (.listT rest)

/-- `FunctionSorter::sort(Expr)` from a fresh sorter, returning the
emitted function list (Derivative.cpp:100-114). -/
def function_sorter_sort (prog : List FunctionSig) (fuel : Nat) (e : Expr) :
    Option (List String) :=
  (sortStep prog fuel ⟨[], []⟩ (.exprT e)).map (·.functions)

mutual

/-- Names of the Halide functions called directly by an expression,
along the `FunctionSorter` traversal: the arguments of a Halide call are
*not* descended into (its `visit(Call)` returns right after expanding
the callee), while every other node's children are. -/
def halide_call_names : Expr → List String
  | .intImm _ => []
  | .floatImm _ => []
  | .var _ _ => []
  | .add a b => halide_call_names a ++ halide_call_names b
  | .sub a b => halide_call_names a ++ halide_call_names b
  | .mul a b => halide_call_names a ++ halide_call_names b
  | .div a b => halide_call_names a ++ halide_call_names b
  | .emin a b => halide_call_names a ++ halide_call_names b
  | .emax a b => halide_call_names a ++ halide_call_names b
  | .cast a => halide_call_names a
  | .le a b => halide_call_names a ++ halide_call_names b
  | .ge a b => halide_call_names a ++ halide_call_names b
  | .eqE a b => halide_call_names a ++ halide_call_names b
  | .select c t f =>
      halide_call_names c ++ halide_call_names t ++ halide_call_names f
  | .call .Halide name _ => [name]
  | .call .Image _ args => halide_call_names_list args
  | .call .Extern _ args => halide_call_names_list args
  | .letE _ value body => halide_call_names value ++ halide_call_names body

def halide_call_names_list : List Expr → List String
  | [] => []
  | e :: rest => halide_call_names e ++ halide_call_names_list rest

end

/-- Halide functions called directly from any stage of a function. -/
def func_call_names (f : FunctionSig) : List String :=
  halide_call_names_list (stages_from f f.updates.length)

/-- Transitive reachability of function names from a seed set, through
the program's call graph (stepping from a reached function into the
functions its stages call). -/
inductive ReachN (prog : List FunctionSig) (seeds : List String) :
    String → Prop where
  | base {n} : n ∈ seeds → ReachN prog seeds n
  | step {m f n} : ReachN prog seeds m → lookupFunc prog m = some f →
      n ∈ func_call_names f → ReachN prog seeds n

/-- A function is reachable from a root expression iff it is reachable
from the Halide calls occurring in it. -/
def Reaches (prog : List FunctionSig) (e : Expr) (n : String) : Prop :=
  ReachN prog (halide_call_names e) n

mutual

/-- Names of the Halide functions whose call nodes occur *anywhere* in an
expression, descending into every child of every node — including the
argument lists of Halide calls.  This is the claim-side notion of "a call
node occurring in the expression" (contrast `halide_call_names`, which
follows the sorter's traversal and does not enter a Halide call's
arguments). -/
def all_call_names : Expr → List String
  | .intImm _ => []
  | .floatImm _ => []
  | .var _ _ => []
  | .add a b => all_call_names a ++ all_call_names b
  | .sub a b => all_call_names a ++ all_call_names b
  | .mul a b => all_call_names a ++ all_call_names b
  | .div a b => all_call_names a ++ all_call_names b
  | .emin a b => all_call_names a ++ all_call_names b
  | .emax a b => all_call_names a ++ all_call_names b
  | .cast a => all_call_names a
  | .le a b => all_call_names a ++ all_call_names b
  | .ge a b => all_call_names a ++ all_call_names b
  | .eqE a b => all_call_names a ++ all_call_names b
  | .select c t f => all_call_names c ++ all_call_names t ++ all_call_names f
  | .call .Halide name args => name :: all_call_names_list args
  | .call .Image _ args => all_call_names_list args
  | .call .Extern _ args => all_call_names_list args
  | .letE _ value body => all_call_names value ++ all_call_names body

def all_call_names_list : List Expr → List String
  | [] => []
  | e :: rest => all_call_names e ++ all_call_names_list rest

end

/-- All Halide call names occurring anywhere in any stage of a function. -/
def func_all_call_names (f : FunctionSig) : List String :=
  all_call_names_list (stages_from f f.updates.length)

/-- Transitive reachability of function names from a seed set through
call nodes, entering every call node's argument list. -/
inductive ReachAllN (prog : List FunctionSig) (seeds : List String) :
    String → Prop where
  | base {n} : n ∈ seeds → ReachAllN prog seeds n
  | step {m f n} : ReachAllN prog seeds m → lookupFunc prog m = some f →
      n ∈ func_all_call_names f → ReachAllN prog seeds n

/-- The claim's notion of transitive reachability from a root expression:
a call node naming the function occurs anywhere in the root, or anywhere
in a stage of an already-reachable function. -/
def ReachesThroughCalls (prog : List FunctionSig) (e : Expr) (n : String) :
    Prop :=
  ReachAllN prog (all_call_names e) n

/-! ### ExpressionSorter (Derivative.cpp:145-190)

`ExpressionSorter` keys its `visited` set by node *address*, so it is
modelled over an explicit node graph: nodes live in a list, a node's
identity is its index, and well-formedness (`WFG`) requires every child
index to be smaller than its parent's — which is exactly the invariant of
Halide's immutable, acyclic expression DAG (a node is created after its
children). -/

/-- A node of the expression DAG, children referenced by identity. -/
inductive GNode where
  | gInt (v : Int)
  | gFloat (v : ℚ)
  | gVar (name : String)
  | gBin (a b : Nat)
  | gCast (a : Nat)
  | gSelect (c t f : Nat)
  | gCall (ct : CallType) (name : String) (args : List Nat)
  | gLet (name : String) (value body : Nat)
deriving DecidableEq, Repr

/-- All children of a node (the references the node holds). -/
def childrenOf : GNode → List Nat
  | .gInt _ => []
  | .gFloat _ => []
  | .gVar _ => []
  | .gBin a b => [a, b]
  | .gCast a => [a]
  | .gSelect c t f => [c, t, f]
  | .gCall _ _ args => args
  | .gLet _ value body => [value, body]

/-- The children `ExpressionSorter` expands: `visit(Call)` returns
without visiting the arguments of a call to a Halide function or to an
image (Derivative.cpp:169-178) — such calls are leaves of this
traversal; every other node's children are expanded by the base
`IRGraphVisitor`. -/
def sorter_children : GNode → List Nat
  | .gCall .Halide _ _ => []
  | .gCall .Image _ _ => []
  | n => childrenOf n

/-- Well-formed node graph: every stored node's children have strictly
smaller identities (acyclicity of the expression DAG). -/
def WFG (g : List GNode) : Prop :=
  ∀ i node, g[i]? = some node → ∀ c ∈ childrenOf node, c < i

/-- `ExpressionSorter` state: the `visited` identity set and `expr_list`. -/
structure ESState where
  visited : List Nat
  expr_list : List Nat
deriving DecidableEq, Repr

/-- Worklist for the sorter: include one node, or include a list. -/
inductive ETask where
  | inclT (i : Nat)
  | nlistT (is : List Nat)

/-- Fuel-bounded interpreter of `ExpressionSorter::include`
(Derivative.cpp:181-190): an already-visited identity is skipped;
otherwise the node is marked visited, its sorter children are included
in order, and then the node is appended to `expr_list`. -/
def esStep (g : List GNode) : Nat → ESState → ETask → Option ESState
  | 0, _, _ => none
  | fuel + 1, st, .inclT i =>
      if i ∈ st.visited then some st
      else
        match g[i]? with
        | none => none
        | some node =>
            match esStep g fuel ⟨i :: st.visited, st.expr_list⟩
                    (.nlistT (sorter_children node)) with
            | none => none
            | some st2 => some ⟨st2.visited, st2.expr_list ++ [i]⟩
  | _ + 1, st, .nlistT [] => some st
  | fuel + 1, st, .nlistT (i :: rest) =>
      match esStep g fuel st (.inclT i) with
      | none => none
      | some st1 => esStep g fuel st1 (.nlistT rest)

/-- `ExpressionSorter::sort` (Derivative.cpp:162-167): clear the state,
accept the root (which includes the root's sorter children — the root
itself is not marked), then push the root. -/
def expression_sorter_sort (g : List GNode) (fuel : Nat) (root : Nat) :
    Option (List Nat) :=
  match g[root]? with
  | none => none
  | some node =>
      match esStep g fuel ⟨[], []⟩ (.nlistT (sorter_children node)) with
      | none => none
      | some st => some (st.expr_list ++ [root])

/-- Children of an identity in the graph, along the sorter's expansion. -/
def sorter_children_at (g : List GNode) (i : Nat) : List Nat :=
  match g[i]? with
  | some node => sorter_children node
  | none => []

/-- Identity-level reachability: the identities an identity transitively
depends on through the sorter's expansion relation. -/
inductive GReach (g : List GNode) (root : Nat) : Nat → Prop where
  | child {c} : c ∈ sorter_children_at g root → GReach g root c
  | trans {m c} : GReach g root m → c ∈ sorter_children_at g m → GReach g root c

/-- Each position of the list is preceded by all the sorter children of
the node it holds: a node appears only after all of its own (expanded)
children. -/
def ChildrenBeforeL (g : List GNode) (L : List Nat) : Prop :=
  ∀ k, k < L.length → ∀ c ∈ sorter_children_at g (L.getD k 0), c ∈ L.take k

/-! ### Spec-side definition for the bounds-inference totality claim -/

/-- Spec-side (written from the claim, to be compared with the source
function): the closed set of expression shapes `get_min_max_bounds`
supports — addition, subtraction, min, max, integer literal,
reduction-variable reference, and plain variable reference resolvable in
the current context (its name bound to a position for which the context
carries a bound). -/
def supported_shape (current_args : List String) (current_bounds : RDom) :
    Expr → Bool
  | .add a b =>
      supported_shape current_args current_bounds a &&
      supported_shape current_args current_bounds b
  | .sub a b =>
      supported_shape current_args current_bounds a &&
      supported_shape current_args current_bounds b
  | .emin a b =>
      supported_shape current_args current_bounds a &&
      supported_shape current_args current_bounds b
  | .emax a b =>
      supported_shape current_args current_bounds a &&
      supported_shape current_args current_bounds b
  | .intImm _ => true
  | .var _ (some _) => true
  | .var v none =>
      match find_arg_index current_args v with
      | some i => decide (i < current_bounds.length)
      | none => false
  | _ => false

/-- The reduction domains occurring in an expression all carry a bound
for coordinate `index` (rules out the out-of-range
`reduction_domain.domain()[index]` access, which is undefined behaviour
on the C++ side). -/
def rvars_cover (index : Nat) : Expr → Bool
  | .add a b => rvars_cover index a && rvars_cover index b
  | .sub a b => rvars_cover index a && rvars_cover index b
  | .emin a b => rvars_cover index a && rvars_cover index b
  | .emax a b => rvars_cover index a && rvars_cover index b
  | .var _ (some dom) => decide (index < dom.length)
  | _ => true

/-! ### Auxiliary notions for the traversal invariants -/

/-- The Halide-call names a sorter task exposes directly. -/
def task_seeds : STask → List String
  | .exprT e => halide_call_names e
  | .funcT f => [f.name]
  | .listT es => halide_call_names_list es

/-- Precondition under which `sortStep` receives a function task: it
always comes from a successful `lookupFunc` on a name not yet traversed
(Derivative.cpp:130-135). -/
def task_pre (prog : List FunctionSig) (st : SortState) : STask → Prop
  | .funcT f => lookupFunc prog f.name = some f ∧ f.name ∉ st.traversed
  | _ => True

/-- Postcondition of one completed `sortStep` run: the traversed set only
grows, the emitted functions are extended by a duplicate-free batch of
fresh names that is synchronized with the traversed set, every emitted
name is reachable from the task's seeds and has its direct callees
traversed by completion, and the task's own seeds end up traversed. -/
def SortPost (prog : List FunctionSig) (st : SortState) (t : STask)
    (st2 : SortState) : Prop :=
  (∀ n ∈ st.traversed, n ∈ st2.traversed)
  ∧ (∃ newF : List String, st2.functions = st.functions ++ newF
      ∧ newF.Nodup
      ∧ (∀ n, n ∈ st2.traversed ↔ (n ∈ st.traversed ∨ n ∈ newF))
      ∧ (∀ n ∈ newF, n ∉ st.traversed)
      ∧ (∀ n ∈ newF, ReachN prog (task_seeds t) n)
      ∧ (∀ n ∈ newF, ∃ f, lookupFunc prog n = some f
          ∧ ∀ m ∈ func_call_names f, m ∈ st2.traversed))
  ∧ (∀ m ∈ task_seeds t, m ∈ st2.traversed)

/-- The node identities an `ExpressionSorter` task includes directly. -/
def etask_roots : ETask → List Nat
  | .inclT i => [i]
  | .nlistT is => is

/-- A pending identity is one marked visited but not yet pushed: an
ancestor whose `include` is still in progress.  In a well-formed (acyclic,
children-smaller) graph, every identity a task includes is strictly below
all pending ancestors. -/
def ESPre (st : ESState) (t : ETask) : Prop :=
  ∀ j ∈ etask_roots t, ∀ p ∈ st.visited, p ∉ st.expr_list → j < p

/-- Invariant of the sorter state between `include` calls: the output is
duplicate-free, only visited identities are output, and every output
position is preceded by its sorter children. -/
def ESInv (g : List GNode) (st : ESState) : Prop :=
  st.expr_list.Nodup
  ∧ (∀ n ∈ st.expr_list, n ∈ st.visited)
  ∧ ChildrenBeforeL g st.expr_list

/-- Postcondition of one completed `esStep` run: visited only grows, the
output is extended by fresh identities reachable from the task's roots,
the pending set is unchanged, the invariant is maintained, and the task's
roots all end up in the output. -/
def ESPost (g : List GNode) (st : ESState) (t : ETask) (st2 : ESState) :
    Prop :=
  (∀ n ∈ st.visited, n ∈ st2.visited)
  ∧ (∃ new, st2.expr_list = st.expr_list ++ new
      ∧ (∀ n ∈ new, n ∉ st.visited)
      ∧ (∀ n ∈ new, ∃ j ∈ etask_roots t, n = j ∨ GReach g j n))
  ∧ (∀ p, (p ∈ st2.visited ∧ p ∉ st2.expr_list)
        ↔ (p ∈ st.visited ∧ p ∉ st.expr_list))
  ∧ ESInv g st2
  ∧ (∀ j ∈ etask_roots t, j ∈ st2.expr_list)

/-! ## Helper lemmas -/

theorem append_r_ne (vi : String) : vi ++ "_r" ≠ vi := by
  intro h
  have hlen := congrArg String.length h
  rw [String.length_append] at hlen
  have h2 : "_r".length = 2 := rfl
  omega

mutual

theorem subst_free_elim (v : String) (repl : Expr)
    (hr : freeContains repl v = false) :
    (e : Expr) → freeContains (substitute v repl e) v = false
  | .intImm _ => rfl
  | .floatImm _ => rfl
  | .var n d => by
      by_cases h : n = v
      · simp [substitute, h, hr]
      · simp [substitute, freeContains, h]
  | .add a b => by
      simp [substitute, freeContains, subst_free_elim v repl hr a,
        subst_free_elim v repl hr b]
  | .sub a b => by
      simp [substitute, freeContains, subst_free_elim v repl hr a,
        subst_free_elim v repl hr b]
  | .mul a b => by
      simp [substitute, freeContains, subst_free_elim v repl hr a,
        subst_free_elim v repl hr b]
  | .div a b => by
      simp [substitute, freeContains, subst_free_elim v repl hr a,
        subst_free_elim v repl hr b]
  | .emin a b => by
      simp [substitute, freeContains, subst_free_elim v repl hr a,
        subst_free_elim v repl hr b]
  | .emax a b => by
      simp [substitute, freeContains, subst_free_elim v repl hr a,
        subst_free_elim v repl hr b]
  | .cast a => by
      simp [substitute, freeContains, subst_free_elim v repl hr a]
  | .le a b => by
      simp [substitute, freeContains, subst_free_elim v repl hr a,
        subst_free_elim v repl hr b]
  | .ge a b => by
      simp [substitute, freeContains, subst_free_elim v repl hr a,
        subst_free_elim v repl hr b]
  | .eqE a b => by
      simp [substitute, freeContains, subst_free_elim v repl hr a,
        subst_free_elim v repl hr b]
  | .select c t f => by
      simp [substitute, freeContains, subst_free_elim v repl hr c,
        subst_free_elim v repl hr t, subst_free_elim v repl hr f]
  | .call ct n args => by
      simp [substitute, freeContains, subst_free_elim_list v repl hr args]
  | .letE n value body => by
      by_cases h : n = v
      · simp [substitute, freeContains, h, subst_free_elim v repl hr value]
      · simp [substitute, freeContains, h, subst_free_elim v repl hr value,
          subst_free_elim v repl hr body]

theorem subst_free_elim_list (v : String) (repl : Expr)
    (hr : freeContains repl v = false) :
    (es : List Expr) → freeContainsList (substituteList v repl es) v = false
  | [] => rfl
  | e :: rest => by
      simp [substituteList, freeContainsList, subst_free_elim v repl hr e,
        subst_free_elim_list v repl hr rest]

end

theorem zipWith_getElem_some {α β γ : Type} (f : α → β → γ) :
    ∀ (l1 : List α) (l2 : List β) (i : Nat) (x : α) (y : β),
      l1[i]? = some x → l2[i]? = some y →
      (List.zipWith f l1 l2)[i]? = some (f x y)
  | [], _, _, _, _, h1, _ => by simp at h1
  | _ :: _, [], _, _, _, _, h2 => by simp at h2
  | a :: l1, b :: l2, 0, x, y, h1, h2 => by
      simp_all
  | a :: l1, b :: l2, i + 1, x, y, h1, h2 => by
      simp only [List.zipWith_cons_cons, List.getElem?_cons_succ] at *
      exact zipWith_getElem_some f l1 l2 i x y h1 h2

/-! ## Claim theorems -/

/-- **C1.** For a call argument that is a plain variable reference (no
reduction domain) whose name matches a current-context domain variable,
`get_min_max_bounds` returns that variable's current-context bound as a
`(minimum, maximum)` pair.  The context `RDom` is the one
`BoundsInferencer::inference` installs at Derivative.cpp:252 —
`RDom(func_bounds[current_func_key])`, whose dimension `i` stores the
recorded `(minimum, maximum)` pair of argument position `i` in its
`(min, extent)` slots — so the `{current_bounds[i].min(),
current_bounds[i].extent()}` returned at line 64 is exactly the recorded
`(minimum, maximum)` bound of the matched variable. -/
theorem get_min_max_bounds_var_context (stored : List (Expr × Expr))
    (current_args : List String) (v : String) (i index : Nat)
    (hfind : find_arg_index current_args v = some i)
    (hi : i < stored.length) :
    get_min_max_bounds (.var v none) current_args (rdom_of_bounds stored) index
      = stored[i]? ∧ (stored[i]?).isSome := by
  have hsome : stored[i]? = some stored[i] := List.getElem?_eq_getElem hi
  have hmap : (rdom_of_bounds stored)[i]?
      = some ⟨stored[i].1, stored[i].2⟩ := by
    simp [rdom_of_bounds, List.getElem?_map, hsome]
  refine ⟨?_, by simp [hsome]⟩
  simp [get_min_max_bounds, hfind, hmap, hsome]

theorem get_min_max_bounds_var_context_witness :
    get_min_max_bounds (.var "x" none) ["x"]
        (rdom_of_bounds [(Expr.intImm 0, Expr.intImm 5)]) 0
      = [(Expr.intImm 0, Expr.intImm 5)][0]?
    ∧ ([(Expr.intImm 0, Expr.intImm 5)][0]?).isSome :=
  get_min_max_bounds_var_context [(Expr.intImm 0, Expr.intImm 5)] ["x"] "x" 0 0
    (by decide) (by decide)

/-- **C4.** The reverse accumulation engine distributes local derivatives
per the fixed rule table: under the reference semantics `ev`, with the
operands evaluating to `x`, `y` and the accumulated adjoint to `q`, for
`mul` the operands receive `q·y` and `q·x`; for `div` they receive `q/y`
and `−q·x/y²`; for `min`/`max` each operand receives the adjoint gated by
the corresponding comparison, and on an exact tie (`x = y`) the adjoint
is routed to both operands. -/
theorem local_derivative_rules (a b adjoint : Expr) (ρ : String → ℚ)
    (x y q : ℚ) (ha : ev ρ a = some x) (hb : ev ρ b = some y)
    (hq : ev ρ adjoint = some q) :
    ((visit_mul a b adjoint).map (fun p => ev ρ p.2)
        = [some (q * y), some (q * x)])
    ∧ ((visit_div a b adjoint).map (fun p => ev ρ p.2)
        = [some (q / y), some (-(q * x) / (y * y))])
    ∧ ((visit_min a b adjoint).map (fun p => ev ρ p.2)
        = [some (if x ≤ y then q else 0), some (if y ≤ x then q else 0)])
    ∧ ((visit_max a b adjoint).map (fun p => ev ρ p.2)
        = [some (if y ≤ x then q else 0), some (if x ≤ y then q else 0)])
    ∧ (x = y →
        (visit_min a b adjoint).map (fun p => ev ρ p.2) = [some q, some q]
        ∧ (visit_max a b adjoint).map (fun p => ev ρ p.2) = [some q, some q]) := by
  have hmul : (visit_mul a b adjoint).map (fun p => ev ρ p.2)
      = [some (q * y), some (q * x)] := by
    simp [visit_mul, ev, ha, hb, hq]
  have hdiv : (visit_div a b adjoint).map (fun p => ev ρ p.2)
      = [some (q / y), some (-(q * x) / (y * y))] := by
    have harith : (0 - q) * x / (y * y) = -(q * x) / (y * y) := by ring
    simp only [visit_div, List.map_cons, List.map_nil, ev, neg, ha, hb, hq,
      Option.bind_eq_bind, Option.some_bind, Option.pure_def, harith]
  have hmin : (visit_min a b adjoint).map (fun p => ev ρ p.2)
      = [some (if x ≤ y then q else 0), some (if y ≤ x then q else 0)] := by
    simp [visit_min, ev, fzero, ha, hb, hq, apply_ite (f := Option.some)]
  have hmax : (visit_max a b adjoint).map (fun p => ev ρ p.2)
      = [some (if y ≤ x then q else 0), some (if x ≤ y then q else 0)] := by
    simp [visit_max, ev, fzero, ha, hb, hq, apply_ite (f := Option.some)]
  refine ⟨hmul, hdiv, hmin, hmax, fun hxy => ⟨?_, ?_⟩⟩
  · rw [hmin, hxy]; simp
  · rw [hmax, hxy]; simp

theorem local_derivative_rules_witness :
    ((visit_mul (Expr.floatImm 2) (Expr.floatImm 2) (Expr.floatImm 3)).map
        (fun p => ev (fun _ => 0) p.2) = [some ((3 : ℚ) * 2), some ((3 : ℚ) * 2)])
    ∧ ((visit_div (Expr.floatImm 2) (Expr.floatImm 2) (Expr.floatImm 3)).map
        (fun p => ev (fun _ => 0) p.2)
        = [some ((3 : ℚ) / 2), some (-((3 : ℚ) * 2) / (2 * 2))])
    ∧ ((visit_min (Expr.floatImm 2) (Expr.floatImm 2) (Expr.floatImm 3)).map
        (fun p => ev (fun _ => 0) p.2)
        = [some (if (2 : ℚ) ≤ 2 then 3 else 0), some (if (2 : ℚ) ≤ 2 then 3 else 0)])
    ∧ ((visit_max (Expr.floatImm 2) (Expr.floatImm 2) (Expr.floatImm 3)).map
        (fun p => ev (fun _ => 0) p.2)
        = [some (if (2 : ℚ) ≤ 2 then 3 else 0), some (if (2 : ℚ) ≤ 2 then 3 else 0)])
    ∧ ((2 : ℚ) = 2 →
        (visit_min (Expr.floatImm 2) (Expr.floatImm 2) (Expr.floatImm 3)).map
          (fun p => ev (fun _ => 0) p.2) = [some 3, some 3]
        ∧ (visit_max (Expr.floatImm 2) (Expr.floatImm 2) (Expr.floatImm 3)).map
          (fun p => ev (fun _ => 0) p.2) = [some 3, some 3]) :=
  local_derivative_rules (Expr.floatImm 2) (Expr.floatImm 2) (Expr.floatImm 3)
    (fun _ => 0) 2 2 3 rfl rfl rfl

/-- **C9.** Adjoint accumulation is additive and keyed by node identity:
`accumulate` sets an absent entry to the adjoint, turns a present entry
into its previous value plus the adjoint, leaves every other key
untouched, and never removes an entry. -/
theorem accumulate_additive (m : AccMap) (k : Nat) (a : Expr) :
    (m k = none → accumulate m k a k = some a)
    ∧ (∀ prev, m k = some prev → accumulate m k a k = some (.add prev a))
    ∧ (∀ k2, k2 ≠ k → accumulate m k a k2 = m k2)
    ∧ (∀ k2, (m k2).isSome → (accumulate m k a k2).isSome) := by
  refine ⟨fun h => by simp [accumulate, h],
          fun prev h => by simp [accumulate, h],
          fun k2 h => by simp [accumulate, h],
          fun k2 h => ?_⟩
  by_cases hk : k2 = k
  · subst hk; simp [accumulate]
  · simpa [accumulate, hk] using h

theorem accumulate_additive_witness :
    accumulate (fun _ => none) 0 fzero 0 = some fzero
    ∧ accumulate (fun n => if n = 1 then some fzero else none) 1 fzero 1
        = some (.add fzero fzero)
    ∧ accumulate (fun _ => none) 0 fzero 5 = none := by
  obtain ⟨h1, -, h3, -⟩ := accumulate_additive (fun _ => none) 0 fzero
  obtain ⟨-, h2, -, -⟩ :=
    accumulate_additive (fun n => if n = 1 then some fzero else none) 1 fzero
  exact ⟨h1 rfl, h2 fzero (by simp), by rw [h3 5 (by decide)]⟩

/-- **C10.** A call node that is neither a call to a Halide function
(`op->func` undefined) nor named `exp_f32` propagates no adjoint to any
of its arguments and raises no error: `visit(Call)` makes no `accumulate`
call and performs no scatter — the derivative through such a call is
silently zero. -/
theorem visit_call_other_intrinsic_silent (solve : Expr → String → Option Expr)
    (ck : FuncKey) (cb : RDom) (cname : String) (cargs : List Expr)
    (adjoint : Expr) (h : cname ≠ "exp_f32") :
    visit_call solve ck cb cname none cargs adjoint
      = .ok ⟨[], none⟩ := by
  simp [visit_call, h]

theorem visit_call_other_intrinsic_silent_witness :
    visit_call (fun _ _ => none) ("f", -1) []
        "log_f32" none [Expr.var "x" none] fzero
      = .ok ⟨[], none⟩ :=
  visit_call_other_intrinsic_silent (fun _ _ => none) ("f", -1) []
    "log_f32" [Expr.var "x" none] fzero (by decide)

/-- **C3.** For every Halide-function call reached during reverse
accumulation, the adjoint contribution is scattered into the accumulator
of the immediately preceding stage (current stage index minus one) when
the called function is the one currently being processed, and into the
accumulator of the called function's final update stage
(`func.updates().size() - 1`) otherwise. -/
theorem visit_call_target_stage (solve : Expr → String → Option Expr)
    (ck : FuncKey) (cb : RDom) (cname : String) (g : FunctionSig)
    (cargs : List Expr) (adjoint : Expr) (r : CallVisitResult)
    (h : visit_call solve ck cb cname (some g) cargs adjoint = .ok r) :
    ∃ adj, r.scatter = some
      ((if g.name = ck.1 then (g.name, ck.2 - 1)
        else (g.name, (g.updates.length : Int) - 1)), g.args, adj) := by
  unfold visit_call at h
  rcases hc : canonicalize solve cb (cargs.zip g.args) adjoint with msg | adj
  · simp [hc] at h
  · simp only [hc] at h
    refine ⟨adj, ?_⟩
    by_cases hn : g.name = ck.1
    · simp [hn] at h ⊢
      rw [← h]
    · simp [hn] at h ⊢
      rw [← h]

theorem visit_call_target_stage_witness :
    ∃ adj,
      (CallVisitResult.mk [] (some (("g", (-1 : Int)), ["x"], fzero))).scatter
        = some
          ((if "g" = "h" then ("g", (-1 : Int) - 1)
            else ("g", (([] : List Expr).length : Int) - 1)),
            ["x"], adj) :=
  visit_call_target_stage (fun _ _ => some (.var "tmp" none)) ("h", -1) []
    "g" ⟨"g", ["x"], fzero, []⟩ [Expr.var "x" none] fzero
    ⟨[], some (("g", -1), ["x"], fzero)⟩ rfl

/-- **C2.** In the canonicalization loop of `visit(Call)`, whenever call
argument `eᵢ` does not contain the called function's `i`-th domain
variable `vᵢ` but the propagated adjoint does, the step rewrites the
adjoint by substituting, for every free occurrence of `vᵢ`, a
reduction-variable expression ranging over the bounds the Bounds
Inferencer computed for the enclosing function (the visitor's
`current_bounds`, Derivative.cpp:415), before the adjoint is scattered:
the step returns exactly that substituted adjoint (further adjusted only
by the reduction-variable renaming of Derivative.cpp:570-575), the
replacement expression is a reduction variable carrying the enclosing
bounds as its domain, and no free occurrence of `vᵢ` survives the
substitution. -/
theorem canon_step_missing_var_reduction (solve : Expr → String → Option Expr)
    (cb : RDom) (ei : Expr) (vi : String) (adjoint : Expr)
    (h1 : contains ei vi = false) (h2 : contains adjoint vi = true) :
    canon_step solve cb ei vi adjoint
      = .ok (rvar_arg_fix ei vi (substitute vi (rdom_to_expr vi cb) adjoint))
    ∧ rdom_to_expr vi cb
      = .var (vi ++ "_r") (some (cb.map (fun rv => (rv.rmin, rv.rextent))))
    ∧ freeContains (substitute vi (rdom_to_expr vi cb) adjoint) vi = false := by
  refine ⟨by simp [canon_step, h1, h2], rfl, ?_⟩
  apply subst_free_elim
  simp [rdom_to_expr, freeContains, append_r_ne vi]

theorem canon_step_missing_var_reduction_witness :
    canon_step (fun _ _ => none) [⟨Expr.intImm 0, Expr.intImm 4⟩]
        (Expr.intImm 7) "x" (Expr.var "x" none)
      = .ok (rvar_arg_fix (Expr.intImm 7) "x"
          (substitute "x" (rdom_to_expr "x" [⟨Expr.intImm 0, Expr.intImm 4⟩])
            (Expr.var "x" none)))
    ∧ rdom_to_expr "x" [⟨Expr.intImm 0, Expr.intImm 4⟩]
      = .var ("x" ++ "_r") (some [(Expr.intImm 0, Expr.intImm 4)])
    ∧ freeContains
        (substitute "x" (rdom_to_expr "x" [⟨Expr.intImm 0, Expr.intImm 4⟩])
          (Expr.var "x" none)) "x" = false :=
  canon_step_missing_var_reduction (fun _ _ => none)
    [⟨Expr.intImm 0, Expr.intImm 4⟩] (Expr.intImm 7) "x" (Expr.var "x" none)
    rfl rfl

/-- **C5.** When bounds for a (function, stage) key are recorded from a
second or later call site, the stored bound for each argument position
becomes the elementwise union interval of the previously stored bound and
the new call site's bound: position by position, `merge_bounds` is
applied, and under the reference semantics (for any evaluation-preserving
simplifier) the merged pair evaluates to the minimum of the two minimums
and the maximum of the two maximums. -/
theorem update_func_bounds_union (simplify : Expr → Expr)
    (hsimp : ∀ ρ e, ev ρ (simplify e) = ev ρ e)
    (fb : FuncKey → Option FuncBoundsL) (key : FuncKey)
    (prev arg_bounds : FuncBoundsL) (hprev : fb key = some prev) :
    (update_func_bounds simplify fb key arg_bounds key
        = some (List.zipWith (merge_bounds simplify) prev arg_bounds))
    ∧ (∀ (i : Nat) (p q : Expr × Expr), prev[i]? = some p → arg_bounds[i]? = some q →
        (List.zipWith (merge_bounds simplify) prev arg_bounds)[i]?
          = some (merge_bounds simplify p q))
    ∧ (∀ p q : Expr × Expr, ∀ ρ a b c d,
        ev ρ p.1 = some a → ev ρ q.1 = some b →
        ev ρ p.2 = some c → ev ρ q.2 = some d →
        ev ρ (merge_bounds simplify p q).1 = some (min a b)
        ∧ ev ρ (merge_bounds simplify p q).2 = some (max c d)) := by
  refine ⟨by simp [update_func_bounds, hprev],
          fun i p q hp hq => zipWith_getElem_some _ prev arg_bounds i p q hp hq,
          fun p q ρ a b c d hpa hqb hpc hqd => ⟨?_, ?_⟩⟩
  · rw [merge_bounds, hsimp]
    simp [ev, hpa, hqb]
  · rw [merge_bounds, hsimp]
    simp [ev, hpc, hqd]

theorem update_func_bounds_union_witness :
    (update_func_bounds id
        (fun k => if k = (("f" : String), (-1 : Int))
                  then some [(Expr.intImm 0, Expr.intImm 1)] else none)
        ("f", -1) [(Expr.intImm 2, Expr.intImm 3)] ("f", -1)
      = some (List.zipWith (merge_bounds id)
          [(Expr.intImm 0, Expr.intImm 1)] [(Expr.intImm 2, Expr.intImm 3)]))
    ∧ ((List.zipWith (merge_bounds id)
          [(Expr.intImm 0, Expr.intImm 1)] [(Expr.intImm 2, Expr.intImm 3)])[0]?
        = some (merge_bounds id (Expr.intImm 0, Expr.intImm 1)
            (Expr.intImm 2, Expr.intImm 3)))
    ∧ (ev (fun _ => 0)
          (merge_bounds id (Expr.intImm 0, Expr.intImm 1)
            (Expr.intImm 2, Expr.intImm 3)).1 = some (min 0 2)
        ∧ ev (fun _ => 0)
            (merge_bounds id (Expr.intImm 0, Expr.intImm 1)
              (Expr.intImm 2, Expr.intImm 3)).2 = some (max 1 3)) := by
  obtain ⟨hstore, hidx, hsem⟩ := update_func_bounds_union id (fun ρ e => rfl)
    (fun k => if k = (("f" : String), (-1 : Int))
              then some [(Expr.intImm 0, Expr.intImm 1)] else none)
    ("f", -1) [(Expr.intImm 0, Expr.intImm 1)] [(Expr.intImm 2, Expr.intImm 3)]
    (by simp)
  exact ⟨hstore, hidx 0 _ _ rfl rfl,
    hsem (Expr.intImm 0, Expr.intImm 1) (Expr.intImm 2, Expr.intImm 3)
      (fun _ => 0) 0 2 1 3 rfl rfl rfl rfl⟩

/-- **C6.** `get_min_max_bounds` produces a bounds pair exactly for the
closed set of supported expression shapes (addition, subtraction, min,
max, integer literal, reduction-variable reference, and plain variable
reference resolvable in the current context), and signals a fatal error
(modelled `none`) for every other shape — assuming the expression's
reduction domains each carry a bound for the queried coordinate (an
out-of-range `domain()[index]` access is undefined behaviour in the
source and modelled as fatal too). -/
theorem get_min_max_bounds_closed_shapes (current_args : List String)
    (current_bounds : RDom) (index : Nat) :
    (e : Expr) → rvars_cover index e = true →
    (get_min_max_bounds e current_args current_bounds index).isSome
      = supported_shape current_args current_bounds e
  | .intImm v, _ => by simp [get_min_max_bounds, supported_shape]
  | .floatImm v, _ => by simp [get_min_max_bounds, supported_shape]
  | .var v rdom, h => by
      match rdom with
      | some dom =>
          simp only [rvars_cover, decide_eq_true_eq] at h
          have : dom[index]? = some dom[index] := List.getElem?_eq_getElem h
          simp [get_min_max_bounds, supported_shape, this]
      | none =>
          rcases hf : find_arg_index current_args v with _ | i
          · simp [get_min_max_bounds, supported_shape, hf]
          · rcases hb : current_bounds[i]? with _ | rv
            · have : ¬ i < current_bounds.length := by
                intro hlt
                rw [List.getElem?_eq_getElem hlt] at hb
                exact Option.noConfusion hb
              simp [get_min_max_bounds, supported_shape, hf, hb, this]
            · have : i < current_bounds.length := by
                by_contra hlt
                rw [List.getElem?_eq_none (by omega)] at hb
                exact Option.noConfusion hb
              simp [get_min_max_bounds, supported_shape, hf, hb, this]
  | .add a b, h => by
      rw [rvars_cover, Bool.and_eq_true] at h
      have ia := get_min_max_bounds_closed_shapes current_args current_bounds index a h.1
      have ib := get_min_max_bounds_closed_shapes current_args current_bounds index b h.2
      rcases hA : get_min_max_bounds a current_args current_bounds index with _ | pa <;>
        rcases hB : get_min_max_bounds b current_args current_bounds index with _ | pb <;>
          simp_all [get_min_max_bounds, supported_shape]
  | .sub a b, h => by
      rw [rvars_cover, Bool.and_eq_true] at h
      have ia := get_min_max_bounds_closed_shapes current_args current_bounds index a h.1
      have ib := get_min_max_bounds_closed_shapes current_args current_bounds index b h.2
      rcases hA : get_min_max_bounds a current_args current_bounds index with _ | pa <;>
        rcases hB : get_min_max_bounds b current_args current_bounds index with _ | pb <;>
          simp_all [get_min_max_bounds, supported_shape]
  | .emin a b, h => by
      rw [rvars_cover, Bool.and_eq_true] at h
      have ia := get_min_max_bounds_closed_shapes current_args current_bounds index a h.1
      have ib := get_min_max_bounds_closed_shapes current_args current_bounds index b h.2
      rcases hA : get_min_max_bounds a current_args current_bounds index with _ | pa <;>
        rcases hB : get_min_max_bounds b current_args current_bounds index with _ | pb <;>
          simp_all [get_min_max_bounds, supported_shape]
  | .emax a b, h => by
      rw [rvars_cover, Bool.and_eq_true] at h
      have ia := get_min_max_bounds_closed_shapes current_args current_bounds index a h.1
      have ib := get_min_max_bounds_closed_shapes current_args current_bounds index b h.2
      rcases hA : get_min_max_bounds a current_args current_bounds index with _ | pa <;>
        rcases hB : get_min_max_bounds b current_args current_bounds index with _ | pb <;>
          simp_all [get_min_max_bounds, supported_shape]
  | .div a b, _ => by simp [get_min_max_bounds, supported_shape]
  | .mul a b, _ => by simp [get_min_max_bounds, supported_shape]
  | .cast a, _ => by simp [get_min_max_bounds, supported_shape]
  | .le a b, _ => by simp [get_min_max_bounds, supported_shape]
  | .ge a b, _ => by simp [get_min_max_bounds, supported_shape]
  | .eqE a b, _ => by simp [get_min_max_bounds, supported_shape]
  | .select c t f, _ => by simp [get_min_max_bounds, supported_shape]
  | .call ct n args, _ => by simp [get_min_max_bounds, supported_shape]
  | .letE n value body, _ => by simp [get_min_max_bounds, supported_shape]

theorem get_min_max_bounds_closed_shapes_witness :
    (get_min_max_bounds (.add (.var "x" none) (.mul (.intImm 1) (.intImm 2)))
        ["x"] [⟨Expr.intImm 0, Expr.intImm 7⟩] 0).isSome
      = supported_shape ["x"] [⟨Expr.intImm 0, Expr.intImm 7⟩]
          (.add (.var "x" none) (.mul (.intImm 1) (.intImm 2))) :=
  get_min_max_bounds_closed_shapes ["x"] [⟨Expr.intImm 0, Expr.intImm 7⟩] 0
    (.add (.var "x" none) (.mul (.intImm 1) (.intImm 2))) rfl

/-! ## FunctionSorter lemmas (towards C7) -/

theorem lookupFunc_name :
    ∀ (prog : List FunctionSig) (n : String) (f : FunctionSig),
      lookupFunc prog n = some f → f.name = n
  | [], _, _, h => by simp [lookupFunc] at h
  | p :: rest, n, f, h => by
      by_cases hp : p.name = n
      · rw [lookupFunc, if_pos hp] at h
        cases h
        exact hp
      · rw [lookupFunc, if_neg hp] at h
        exact lookupFunc_name rest n f h

theorem ReachN_mono (prog : List FunctionSig) {s1 s2 : List String}
    (hs : ∀ m ∈ s1, m ∈ s2) :
    ∀ {n}, ReachN prog s1 n → ReachN prog s2 n := by
  intro n h
  induction h with
  | base hm => exact .base (hs _ hm)
  | step _ hl hc ih => exact .step ih hl hc

theorem ReachN_through (prog : List FunctionSig) (f : FunctionSig)
    (hl : lookupFunc prog f.name = some f) :
    ∀ {n}, ReachN prog (func_call_names f) n → ReachN prog [f.name] n := by
  intro n h
  induction h with
  | base hm => exact .step (.base (by simp)) hl hm
  | step _ hl2 hc ih => exact .step ih hl2 hc

theorem stages_from_take (f : FunctionSig) :
    ∀ n, n ≤ f.updates.length →
      stages_from f n = (f.updates.take n).reverse ++ [f.value]
  | 0, _ => by simp [stages_from]
  | n + 1, h => by
      have hn : n < f.updates.length := by omega
      have ih := stages_from_take f n (by omega)
      rw [stages_from, ih, List.take_succ, List.getElem?_eq_getElem hn,
        Option.toList_some, List.reverse_append, List.reverse_singleton,
        List.singleton_append, List.cons_append]
      congr 1
      rw [List.getD_eq_getElem?_getD, List.getElem?_eq_getElem hn]
      rfl

theorem sortPost_rfl (prog : List FunctionSig) (st : SortState) (t : STask)
    (hseeds : ∀ m ∈ task_seeds t, m ∈ st.traversed) :
    SortPost prog st t st := by
  refine ⟨fun n hn => hn, ⟨[], by simp, List.nodup_nil, by simp,
    by simp, by simp, by simp⟩, hseeds⟩

theorem sortPost_transfer {prog : List FunctionSig} {st st2 : SortState}
    {t1 t2 : STask} (h : SortPost prog st t1 st2)
    (hseeds : ∀ m, m ∈ task_seeds t2 ↔ m ∈ task_seeds t1) :
    SortPost prog st t2 st2 := by
  obtain ⟨hmono, ⟨newF, hfun, hnd, hiff, hfr, hreach, hclos⟩, hE⟩ := h
  exact ⟨hmono,
    ⟨newF, hfun, hnd, hiff, hfr,
      fun n hn => ReachN_mono prog (fun m hm => (hseeds m).mpr hm) (hreach n hn),
      hclos⟩,
    fun m hm => hE m ((hseeds m).mp hm)⟩

theorem sortPost_comp {prog : List FunctionSig} {st st1 st2 : SortState}
    {e : Expr} {rest : List Expr}
    (h1 : SortPost prog st (.exprT e) st1)
    (h2 : SortPost prog st1 (.listT rest) st2) :
    SortPost prog st (.listT (e :: rest)) st2 := by
  obtain ⟨m1, ⟨n1, f1, nd1, i1, fr1, r1, c1⟩, e1⟩ := h1
  obtain ⟨m2, ⟨n2, f2, nd2, i2, fr2, r2, c2⟩, e2⟩ := h2
  have hseeds : task_seeds (.listT (e :: rest))
      = halide_call_names e ++ halide_call_names_list rest := rfl
  refine ⟨fun n hn => m2 n (m1 n hn),
    ⟨n1 ++ n2, by rw [f2, f1, List.append_assoc],
      ?_, ?_, ?_, ?_, ?_⟩, ?_⟩
  · -- Nodup (n1 ++ n2)
    refine List.Nodup.append nd1 nd2 (fun a ha1 ha2 => ?_)
    have : a ∈ st1.traversed := (i1 a).mpr (Or.inr ha1)
    exact fr2 a ha2 this
  · intro n
    rw [i2 n, i1 n, List.mem_append]
    tauto
  · intro n hn
    rcases List.mem_append.mp hn with hn1 | hn2
    · exact fr1 n hn1
    · intro hst
      exact fr2 n hn2 ((i1 n).mpr (Or.inl hst))
  · intro n hn
    rw [hseeds]
    rcases List.mem_append.mp hn with hn1 | hn2
    · exact ReachN_mono prog (fun m hm => List.mem_append.mpr (Or.inl hm)) (r1 n hn1)
    · exact ReachN_mono prog (fun m hm => List.mem_append.mpr (Or.inr hm)) (r2 n hn2)
  · intro n hn
    rcases List.mem_append.mp hn with hn1 | hn2
    · obtain ⟨f, hf, hcal⟩ := c1 n hn1
      exact ⟨f, hf, fun m hm => m2 m (hcal m hm)⟩
    · exact c2 n hn2
  · intro m hm
    rw [hseeds] at hm
    rcases List.mem_append.mp hm with hm1 | hm2
    · exact m2 m (e1 m hm1)
    · exact e2 m hm2

theorem sortPost_func {prog : List FunctionSig} {st st2 : SortState}
    {f : FunctionSig}
    (hl : lookupFunc prog f.name = some f) (hfresh : f.name ∉ st.traversed)
    (h : SortPost prog ⟨f.name :: st.traversed, st.functions ++ [f.name]⟩
          (.listT (stages_from f f.updates.length)) st2) :
    SortPost prog st (.funcT f) st2 := by
  obtain ⟨m2, ⟨newF2, f2, nd2, i2, fr2, r2, c2⟩, e2⟩ := h
  have hfcn : task_seeds (.listT (stages_from f f.updates.length))
      = func_call_names f := rfl
  have hnameT : f.name ∈ st2.traversed :=
    m2 f.name (by simp)
  refine ⟨fun n hn => m2 n (by simp [hn]),
    ⟨f.name :: newF2, ?_, ?_, ?_, ?_, ?_, ?_⟩, ?_⟩
  · rw [f2]
    simp
  · refine List.Nodup.cons (fun hmem => ?_) nd2
    exact fr2 f.name hmem (by simp)
  · intro n
    rw [i2 n]
    simp
    tauto
  · intro n hn
    rcases List.mem_cons.mp hn with hn1 | hn2
    · rw [hn1]; exact hfresh
    · intro hst
      exact fr2 n hn2 (by simp [hst])
  · intro n hn
    rcases List.mem_cons.mp hn with hn1 | hn2
    · exact hn1 ▸ ReachN.base (by simp [task_seeds])
    · have := r2 n hn2
      rw [hfcn] at this
      exact ReachN_through prog f hl this
  · intro n hn
    rcases List.mem_cons.mp hn with hn1 | hn2
    · refine hn1 ▸ ⟨f, hl, fun m hm => ?_⟩
      exact e2 m (by rw [hfcn]; exact hm)
    · exact c2 n hn2
  · intro m hm
    simp [task_seeds] at hm
    rw [hm]
    exact hnameT

theorem sortStep_post (prog : List FunctionSig) :
    ∀ (fuel : Nat) (st : SortState) (t : STask) (st2 : SortState),
      sortStep prog fuel st t = some st2 → task_pre prog st t →
      SortPost prog st t st2 := by
  intro fuel
  induction fuel with
  | zero => intro st t st2 h; simp [sortStep] at h
  | succ fuel ih =>
    intro st t st2 h hpre
    cases t with
    | exprT e =>
      cases e with
      | intImm v =>
          rw [sortStep] at h; cases h
          exact sortPost_rfl prog st _ (by simp [task_seeds, halide_call_names])
      | floatImm v =>
          rw [sortStep] at h; cases h
          exact sortPost_rfl prog st _ (by simp [task_seeds, halide_call_names])
      | var n d =>
          rw [sortStep] at h; cases h
          exact sortPost_rfl prog st _ (by simp [task_seeds, halide_call_names])
      | add a b =>
          rw [sortStep] at h
          exact sortPost_transfer (ih st _ st2 h trivial)
            (by simp [task_seeds, halide_call_names, halide_call_names_list])
      | sub a b =>
          rw [sortStep] at h
          exact sortPost_transfer (ih st _ st2 h trivial)
            (by simp [task_seeds, halide_call_names, halide_call_names_list])
      | mul a b =>
          rw [sortStep] at h
          exact sortPost_transfer (ih st _ st2 h trivial)
            (by simp [task_seeds, halide_call_names, halide_call_names_list])
      | div a b =>
          rw [sortStep] at h
          exact sortPost_transfer (ih st _ st2 h trivial)
            (by simp [task_seeds, halide_call_names, halide_call_names_list])
      | emin a b =>
          rw [sortStep] at h
          exact sortPost_transfer (ih st _ st2 h trivial)
            (by simp [task_seeds, halide_call_names, halide_call_names_list])
      | emax a b =>
          rw [sortStep] at h
          exact sortPost_transfer (ih st _ st2 h trivial)
            (by simp [task_seeds, halide_call_names, halide_call_names_list])
      | cast a =>
          rw [sortStep] at h
          exact sortPost_transfer (ih st _ st2 h trivial)
            (by simp [task_seeds, halide_call_names, halide_call_names_list])
      | le a b =>
          rw [sortStep] at h
          exact sortPost_transfer (ih st _ st2 h trivial)
            (by simp [task_seeds, halide_call_names, halide_call_names_list])
      | ge a b =>
          rw [sortStep] at h
          exact sortPost_transfer (ih st _ st2 h trivial)
            (by simp [task_seeds, halide_call_names, halide_call_names_list])
      | eqE a b =>
          rw [sortStep] at h
          exact sortPost_transfer (ih st _ st2 h trivial)
            (by simp [task_seeds, halide_call_names, halide_call_names_list])
      | select c t f =>
          rw [sortStep] at h
          exact sortPost_transfer (ih st _ st2 h trivial)
            (by simp [task_seeds, halide_call_names, halide_call_names_list])
      | letE n value body =>
          rw [sortStep] at h
          exact sortPost_transfer (ih st _ st2 h trivial)
            (by simp [task_seeds, halide_call_names, halide_call_names_list])
      | call ct name args =>
          cases ct with
          | Halide =>
              rw [sortStep] at h
              rcases hl : lookupFunc prog name with _ | f
              · simp [hl] at h
              · simp only [hl] at h
                have hname : f.name = name := lookupFunc_name prog name f hl
                by_cases htr : name ∈ st.traversed
                · rw [if_pos htr] at h; cases h
                  exact sortPost_rfl prog st _
                    (by simp [task_seeds, halide_call_names, htr])
                · rw [if_neg htr] at h
                  have hp : task_pre prog st (.funcT f) :=
                    ⟨by rw [hname]; exact hl, by rw [hname]; exact htr⟩
                  exact sortPost_transfer (ih st _ st2 h hp)
                    (by simp [task_seeds, halide_call_names, hname])
          | Image =>
              rw [sortStep] at h
              exact sortPost_transfer (ih st _ st2 h trivial)
                (by simp [task_seeds, halide_call_names])
          | Extern =>
              rw [sortStep] at h
              exact sortPost_transfer (ih st _ st2 h trivial)
                (by simp [task_seeds, halide_call_names])
    | funcT f =>
        rw [sortStep] at h
        obtain ⟨hl, hfresh⟩ := hpre
        exact sortPost_func hl hfresh (ih _ _ st2 h trivial)
    | listT es =>
        cases es with
        | nil =>
            rw [sortStep] at h; cases h
            exact sortPost_rfl prog st _
              (by simp [task_seeds, halide_call_names_list])
        | cons e rest =>
            rw [sortStep] at h
            rcases h1 : sortStep prog fuel st (.exprT e) with _ | st1
            · rw [h1] at h; cases h
            · rw [h1] at h
              exact sortPost_comp (ih st _ st1 h1 trivial) (ih st1 _ st2 h trivial)

/-- **C7, as amended.**  The claim as stated — output contains *each
transitively reachable* Halide function — fails on the code: the sorter
never visits a Halide call's argument list (see
`function_sorter_claim_counterexample`).  Amended claim: for every root
expression, when the dependency sorter completes, its output list
contains exactly once each Halide function transitively reachable
*without passing through the argument list of a Halide-function call* —
the list is duplicate-free (so a function already traversed is never
expanded again) and a name appears in it if and only if it is reachable
from the root along that traversal — and each expanded function's stages
are visited from its last update stage down to its initialization
(`stages_from` enumerates `update_value(n-1), ..., update_value(0),
value()`). -/
theorem function_sorter_correct (prog : List FunctionSig) (fuel : Nat)
    (e : Expr) (fns : List String)
    (h : function_sorter_sort prog fuel e = some fns) :
    fns.Nodup
    ∧ (∀ n, n ∈ fns ↔ Reaches prog e n)
    ∧ (∀ f : FunctionSig, stages_from f f.updates.length
        = f.updates.reverse ++ [f.value]) := by
  unfold function_sorter_sort at h
  rcases hs : sortStep prog fuel ⟨[], []⟩ (.exprT e) with _ | st2 <;> rw [hs] at h
  · cases h
  · have hfns : st2.functions = fns := by simpa using h
    subst hfns
    obtain ⟨-, ⟨newF, hfun, hnd, hiff, -, hreach, hclos⟩, hE⟩ :=
      sortStep_post prog fuel ⟨[], []⟩ (.exprT e) st2 hs trivial
    have hfn : st2.functions = newF := by simpa using hfun
    have htr_iff : ∀ n, n ∈ st2.traversed ↔ n ∈ newF := by
      intro n
      rw [hiff n]
      simp
    refine ⟨by rw [hfn]; exact hnd, fun n => ⟨fun hn => ?_, fun hn => ?_⟩,
      fun f => ?_⟩
    · exact hreach n (by rw [← hfn]; exact hn)
    · -- completeness: every reachable function is in the output
      rw [hfn]
      induction hn with
      | base hm => exact (htr_iff _).mp (hE _ hm)
      | step hm hl hc ih =>
          obtain ⟨fm, hfm, hcal⟩ := hclos _ ih
          rw [hl] at hfm
          cases hfm
          exact (htr_iff _).mp (hcal _ hc)
    · rw [stages_from_take f f.updates.length (Nat.le_refl _), List.take_length]

theorem function_sorter_correct_witness :
    ([("g" : String)] : List String).Nodup
    ∧ (∀ n, n ∈ [("g" : String)] ↔
        Reaches [⟨"g", ["x"], Expr.intImm 0, []⟩]
          (.call .Halide "g" [Expr.var "x" none]) n)
    ∧ (∀ f : FunctionSig, stages_from f f.updates.length
        = f.updates.reverse ++ [f.value]) :=
  function_sorter_correct [⟨"g", ["x"], Expr.intImm 0, []⟩] 4
    (.call .Halide "g" [Expr.var "x" none]) ["g"] rfl

/-- **C7, counterexample to the claim as stated.**  For the root
`f(g(x))`, `FunctionSorter::visit(Call)` (Derivative.cpp:129-137)
expands the callee `f` and returns without visiting the call's
arguments, so the sorter completes with output `["f"]` — yet `g` is a
Halide function transitively reachable through a call node of the root
expression.  The output therefore does not contain each transitively
reachable Halide function. -/
theorem function_sorter_claim_counterexample :
    function_sorter_sort
        [⟨"f", ["x"], Expr.intImm 0, []⟩, ⟨"g", ["x"], Expr.intImm 0, []⟩] 6
        (.call .Halide "f" [.call .Halide "g" [Expr.var "x" none]])
      = some ["f"]
    ∧ ReachesThroughCalls
        [⟨"f", ["x"], Expr.intImm 0, []⟩, ⟨"g", ["x"], Expr.intImm 0, []⟩]
        (.call .Halide "f" [.call .Halide "g" [Expr.var "x" none]]) "g"
    ∧ "g" ∉ (["f"] : List String) := by
  refine ⟨rfl, .base ?_, by decide⟩
  simp [ReachesThroughCalls, all_call_names, all_call_names_list]

/-! ## ExpressionSorter lemmas (towards C8) -/

theorem sorter_children_subset :
    ∀ (n : GNode), ∀ c ∈ sorter_children n, c ∈ childrenOf n := by
  intro n c hc
  cases n with
  | gCall ct name args =>
      cases ct with
      | Halide => simp [sorter_children] at hc
      | Image => simp [sorter_children] at hc
      | Extern => exact hc
  | gInt v => exact hc
  | gFloat v => exact hc
  | gVar name => exact hc
  | gBin a b => exact hc
  | gCast a => exact hc
  | gSelect c2 t f => exact hc
  | gLet name value body => exact hc

theorem mem_sorter_children_at {g : List GNode} {i c : Nat}
    (hc : c ∈ sorter_children_at g i) :
    ∃ node, g[i]? = some node ∧ c ∈ sorter_children node := by
  unfold sorter_children_at at hc
  rcases hg : g[i]? with _ | node
  · rw [hg] at hc; simp at hc
  · rw [hg] at hc; exact ⟨node, rfl, hc⟩

theorem GReach_lt {g : List GNode} (hwf : WFG g) :
    ∀ {i n : Nat}, GReach g i n → n < i := by
  intro i n h
  induction h with
  | child hc =>
      obtain ⟨node, hg, hcc⟩ := mem_sorter_children_at hc
      exact hwf _ node hg _ (sorter_children_subset node _ hcc)
  | trans _ hc ih =>
      obtain ⟨node, hg, hcc⟩ := mem_sorter_children_at hc
      exact Nat.lt_trans (hwf _ node hg _ (sorter_children_subset node _ hcc)) ih

theorem GReach_lift {g : List GNode} {i j n : Nat}
    (h : GReach g j n) (hj : j ∈ sorter_children_at g i) : GReach g i n := by
  induction h with
  | child hc => exact .trans (.child hj) hc
  | trans _ hc ih => exact .trans ih hc

theorem childrenBeforeL_append {g : List GNode} {L : List Nat} {i : Nat}
    (hcb : ChildrenBeforeL g L)
    (hch : ∀ c ∈ sorter_children_at g i, c ∈ L) :
    ChildrenBeforeL g (L ++ [i]) := by
  intro k hk c hc
  rw [List.length_append, List.length_singleton] at hk
  by_cases hlt : k < L.length
  · rw [List.getD_append L [i] 0 k hlt] at hc
    rw [List.take_append_of_le_length (Nat.le_of_lt hlt)]
    exact hcb k hlt c hc
  · have hkl : k = L.length := by omega
    subst hkl
    rw [List.getD_append_right, Nat.sub_self] at hc
    · rw [List.take_left]
      exact hch c (by simpa [List.getD] using hc)
    · exact Nat.le_refl _

theorem childrenBeforeL_closed {g : List GNode} {L : List Nat} {m c : Nat}
    (hcb : ChildrenBeforeL g L) (hm : m ∈ L)
    (hc : c ∈ sorter_children_at g m) : c ∈ L := by
  obtain ⟨k, hk, he⟩ := List.mem_iff_getElem.mp hm
  have hgd : L.getD k 0 = m := by
    rw [List.getD_eq_getElem?_getD, List.getElem?_eq_getElem hk]
    exact he
  exact List.take_subset k L (hcb k hk c (by rw [hgd]; exact hc))

theorem esStep_post (g : List GNode) (hwf : WFG g) :
    ∀ (fuel : Nat) (st : ESState) (t : ETask) (st2 : ESState),
      esStep g fuel st t = some st2 → ESInv g st → ESPre st t →
      ESPost g st t st2 := by
  intro fuel
  induction fuel with
  | zero => intro st t st2 h; simp [esStep] at h
  | succ fuel ih =>
    intro st t st2 h hinv hpre
    obtain ⟨hnd, hsub, hcb⟩ := hinv
    cases t with
    | inclT i =>
        rw [esStep] at h
        by_cases hv : i ∈ st.visited
        · rw [if_pos hv] at h
          cases h
          refine ⟨fun n hn => hn, ⟨[], by simp, by simp, by simp⟩,
            fun p => Iff.rfl, ⟨hnd, hsub, hcb⟩, ?_⟩
          intro j hj
          simp [etask_roots] at hj
          subst hj
          by_contra hout
          exact absurd (hpre j (by simp [etask_roots]) j hv hout) (by omega)
        · rw [if_neg hv] at h
          rcases hg : g[i]? with _ | node
          · simp [hg] at h
          · simp only [hg] at h
            rcases h2 : esStep g fuel ⟨i :: st.visited, st.expr_list⟩
                (.nlistT (sorter_children node)) with _ | stM
            · simp [h2] at h
            · simp only [h2] at h
              cases h
              have hchat : sorter_children_at g i = sorter_children node := by
                unfold sorter_children_at; rw [hg]
              have hiout : i ∉ st.expr_list := fun hmem => hv (hsub i hmem)
              have hpre2 : ESPre ⟨i :: st.visited, st.expr_list⟩
                  (.nlistT (sorter_children node)) := by
                intro j hj p hp hpo
                have hji : j < i :=
                  hwf i node hg j (sorter_children_subset node j hj)
                rcases List.mem_cons.mp hp with hpi | hps
                · omega
                · exact Nat.lt_trans hji
                    (hpre i (by simp [etask_roots]) p hps hpo)
              obtain ⟨monoM, ⟨newM, hlistM, freshM, reachM⟩, pendM,
                  ⟨ndM, subM, cbM⟩, rootsM⟩ :=
                ih ⟨i :: st.visited, st.expr_list⟩ _ stM h2
                  ⟨hnd, fun n hn => List.mem_cons_of_mem i (hsub n hn), hcb⟩
                  hpre2
              have hmono : ∀ n ∈ st.visited, n ∈ stM.visited :=
                fun n hn => monoM n (List.mem_cons_of_mem i hn)
              have hiM : i ∈ stM.visited := monoM i (List.mem_cons_self i _)
              have hinew : i ∉ newM := fun hmem =>
                freshM i hmem (List.mem_cons_self i _)
              have hinotM : i ∉ stM.expr_list := by
                rw [hlistM]
                intro hmem
                rcases List.mem_append.mp hmem with hmem | hmem
                · exact hiout hmem
                · exact hinew hmem
              refine ⟨hmono, ⟨newM ++ [i], ?_, ?_, ?_⟩, ?_, ⟨?_, ?_, ?_⟩, ?_⟩
              · simp [hlistM]
              · intro n hn
                rcases List.mem_append.mp hn with hn | hn
                · exact fun hmem =>
                    freshM n hn (List.mem_cons_of_mem i hmem)
                · simp at hn
                  subst hn
                  exact hv
              · intro n hn
                refine ⟨i, by simp [etask_roots], ?_⟩
                rcases List.mem_append.mp hn with hn | hn
                · obtain ⟨j, hj, hnj⟩ := reachM n hn
                  simp [etask_roots] at hj
                  have hjat : j ∈ sorter_children_at g i := by
                    rw [hchat]; exact hj
                  rcases hnj with hnj | hnj
                  · exact Or.inr (hnj ▸ GReach.child hjat)
                  · exact Or.inr (GReach_lift hnj hjat)
                · simp at hn
                  exact Or.inl hn
              · intro p
                constructor
                · rintro ⟨hpv, hpo⟩
                  have hpne : p ≠ i := by
                    intro hpe
                    subst hpe
                    exact hpo (by simp)
                  have hpoM : p ∉ stM.expr_list := fun hmem =>
                    hpo (List.mem_append.mpr (Or.inl hmem))
                  have := (pendM p).mp ⟨hpv, hpoM⟩
                  rcases List.mem_cons.mp this.1 with hpi | hps
                  · exact absurd hpi hpne
                  · exact ⟨hps, this.2⟩
                · rintro ⟨hpv, hpo⟩
                  have hpne : p ≠ i := by
                    intro hpe
                    subst hpe
                    exact hv hpv
                  have := (pendM p).mpr
                    ⟨List.mem_cons_of_mem i hpv, hpo⟩
                  refine ⟨this.1, fun hmem => ?_⟩
                  rcases List.mem_append.mp hmem with hmem | hmem
                  · exact this.2 hmem
                  · simp at hmem
                    exact hpne hmem
              · refine List.Nodup.append ndM (List.nodup_singleton i) ?_
                intro a ha1 ha2
                simp at ha2
                subst ha2
                exact hinotM ha1
              · intro n hn
                rcases List.mem_append.mp hn with hn | hn
                · exact subM n hn
                · simp at hn
                  subst hn
                  exact hiM
              · refine childrenBeforeL_append cbM ?_
                intro c hc
                rw [hchat] at hc
                exact rootsM c hc
              · intro j hj
                simp [etask_roots] at hj
                subst hj
                exact List.mem_append.mpr (Or.inr (by simp))
    | nlistT is =>
        cases is with
        | nil =>
            rw [esStep] at h
            cases h
            exact ⟨fun n hn => hn, ⟨[], by simp, by simp, by simp⟩,
              fun p => Iff.rfl, ⟨hnd, hsub, hcb⟩, by simp [etask_roots]⟩
        | cons i rest =>
            rw [esStep] at h
            rcases h1 : esStep g fuel st (.inclT i) with _ | st1
            · rw [h1] at h; cases h
            · rw [h1] at h
              have hpre1 : ESPre st (.inclT i) := by
                intro j hj p hp hpo
                have hji : j = i := by simpa [etask_roots] using hj
                rw [hji]
                exact hpre i (by simp [etask_roots]) p hp hpo
              obtain ⟨mono1, ⟨new1, hlist1, fresh1, reach1⟩, pend1, inv1,
                  roots1⟩ :=
                ih st _ st1 h1 ⟨hnd, hsub, hcb⟩ hpre1
              have hpre2 : ESPre st1 (.nlistT rest) := by
                intro j hj p hp hpo
                have hpd := (pend1 p).mp ⟨hp, hpo⟩
                exact hpre j (List.mem_cons_of_mem i hj) p hpd.1 hpd.2
              obtain ⟨mono2, ⟨new2, hlist2, fresh2, reach2⟩, pend2, inv2,
                  roots2⟩ :=
                ih st1 _ st2 h inv1 hpre2
              refine ⟨fun n hn => mono2 n (mono1 n hn),
                ⟨new1 ++ new2, ?_, ?_, ?_⟩, ?_, inv2, ?_⟩
              · rw [hlist2, hlist1, List.append_assoc]
              · intro n hn
                rcases List.mem_append.mp hn with hn | hn
                · exact fresh1 n hn
                · exact fun hmem => fresh2 n hn (mono1 n hmem)
              · intro n hn
                rcases List.mem_append.mp hn with hn | hn
                · obtain ⟨j, hj, hnj⟩ := reach1 n hn
                  simp [etask_roots] at hj
                  exact ⟨j, by simp [etask_roots, hj], hnj⟩
                · obtain ⟨j, hj, hnj⟩ := reach2 n hn
                  exact ⟨j, by simp [etask_roots] at hj ⊢; exact Or.inr hj, hnj⟩
              · intro p
                rw [pend2 p, pend1 p]
              · intro j hj
                simp only [etask_roots] at hj
                rcases List.mem_cons.mp hj with hj | hj
                · subst hj
                  have hj1 : j ∈ st1.expr_list :=
                    roots1 j (by simp [etask_roots])
                  rw [hlist2]
                  exact List.mem_append.mpr (Or.inl hj1)
                · exact roots2 j hj

theorem WFG_of_bounded (g : List GNode)
    (hb : ∀ i, (hi : i < g.length) → ∀ c ∈ childrenOf g[i], c < i) :
    WFG g := by
  intro i node hnode c hc
  have hi : i < g.length := by
    by_contra hcon
    rw [List.getElem?_eq_none (by omega)] at hnode
    cases hnode
  have hget : g[i] = node := by
    rw [List.getElem?_eq_getElem hi] at hnode
    injection hnode
  exact hb i hi c (by rw [hget]; exact hc)

/-- **C8.** For every expression root, when the expression topological
sorter completes on a well-formed node graph, its output contains the
root and exactly the identity-distinct sub-nodes the root transitively
depends on, each appearing exactly once regardless of fan-in
(`L.Nodup` plus the membership equivalence), with every node appearing
only after all of its own children under the sorter's expansion relation
— in which calls to Halide functions and to images are leaves whose
arguments are not expanded (`sorter_children`) — and the root appearing
last. -/
theorem expression_sorter_topological (g : List GNode) (fuel root : Nat)
    (L : List Nat) (hwf : WFG g)
    (h : expression_sorter_sort g fuel root = some L) :
    L.Nodup
    ∧ (∀ n, n ∈ L ↔ (n = root ∨ GReach g root n))
    ∧ ChildrenBeforeL g L
    ∧ L.getLast? = some root := by
  unfold expression_sorter_sort at h
  rcases hg : g[root]? with _ | node
  · rw [hg] at h; cases h
  · simp only [hg] at h
    rcases hs : esStep g fuel ⟨[], []⟩ (.nlistT (sorter_children node))
        with _ | stF
    · simp [hs] at h
    · simp only [hs] at h
      cases h
      obtain ⟨-, ⟨new, hlist, -, reach⟩, -, ⟨ndF, -, cbF⟩, rootsF⟩ :=
        esStep_post g hwf fuel ⟨[], []⟩ (.nlistT (sorter_children node)) stF hs
          ⟨List.nodup_nil, by simp, fun k hk => by simp at hk⟩
          (fun j hj p hp hpo => by simp at hp)
      have hnew : stF.expr_list = new := by simpa using hlist
      have hchat : sorter_children_at g root = sorter_children node := by
        unfold sorter_children_at; rw [hg]
      have hreachL : ∀ n ∈ stF.expr_list, GReach g root n := by
        intro n hn
        rw [hnew] at hn
        obtain ⟨j, hj, hnj⟩ := reach n hn
        have hjat : j ∈ sorter_children_at g root := by
          rw [hchat]; exact hj
        rcases hnj with hnj | hnj
        · exact hnj ▸ GReach.child hjat
        · exact GReach_lift hnj hjat
      have hrootout : root ∉ stF.expr_list := by
        intro hmem
        exact absurd (GReach_lt hwf (hreachL root hmem)) (lt_irrefl root)
      have hG : ∀ n, GReach g root n → n ∈ stF.expr_list := by
        intro n hn
        induction hn with
        | child hc => exact rootsF _ (by rw [← hchat]; exact hc)
        | trans _ hc ih => exact childrenBeforeL_closed cbF ih hc
      refine ⟨?_, fun n => ⟨fun hn => ?_, fun hn => ?_⟩, ?_, ?_⟩
      · refine List.Nodup.append ndF (List.nodup_singleton root) ?_
        intro a ha1 ha2
        simp at ha2
        subst ha2
        exact hrootout ha1
      · rcases List.mem_append.mp hn with hn | hn
        · exact Or.inr (hreachL n hn)
        · simp at hn
          exact Or.inl hn
      · rcases hn with hn | hn
        · subst hn
          exact List.mem_append.mpr (Or.inr (by simp))
        · exact List.mem_append.mpr (Or.inl (hG n hn))
      · refine childrenBeforeL_append cbF ?_
        intro c hc
        rw [hchat] at hc
        exact rootsF c hc
      · exact List.getLast?_concat _

theorem expression_sorter_topological_witness :
    ([0, 1, 2] : List Nat).Nodup
    ∧ (∀ n, n ∈ ([0, 1, 2] : List Nat) ↔
        (n = 2 ∨ GReach [.gVar "x", .gInt 1, .gBin 0 1] 2 n))
    ∧ ChildrenBeforeL [.gVar "x", .gInt 1, .gBin 0 1] [0, 1, 2]
    ∧ ([0, 1, 2] : List Nat).getLast? = some 2 :=
  expression_sorter_topological [.gVar "x", .gInt 1, .gBin 0 1] 5 2 [0, 1, 2]
    (WFG_of_bounded _ (by decide)) rfl

end GradientHalide
